import Mathlib

/-!
# Array list (`array_list.c`): a shallow embedding and its properties

The C program keeps a descriptor `struct array_list_s` with a heap block of
`void *` slots, a `capacity` and a `num_of_elements`, both `unsigned int`.

Modelling choices, all taken from the source:

* A heap block of slots is a `List (Option α)`: its length is the number of
  whole slots the allocation holds, `none` is a slot that was never written
  (indeterminate after `malloc`/`realloc`), `some p` is a stored reference.
* `unsigned int` values are naturals below `2 ^ 32`; every `unsigned int`
  operation of the source is written with its wrap-around.
* `1.5 * capacity` is a `double` product. For a 32-bit `capacity` the product
  and its multiple by `sizeof(void *)` are exact in binary64, so they are
  modelled by exact rational arithmetic; the conversion back to an integer
  type truncates, and is undefined when the truncated value does not fit.
* The outcome of `malloc`/`realloc` is an input of the model (a `Bool`).
* An access outside the heap block, or an undefined conversion, ends the run
  in `Result.undefined`.
-/

namespace ArrayList

/-- The `boolean` enumeration of `array_list.h`. -/
inductive boolean where
  | FALSE
  | TRUE
deriving DecidableEq, Repr

/-- `#define DEFAULT_NUM_OF_ELEMENTS 2`. -/
def DEFAULT_NUM_OF_ELEMENTS : Nat := 2

/-- Largest value of an `unsigned int` (32 bits). -/
def UINT_MAX : Nat := 4294967295

/-- `sizeof(void *)` on the LP64 targets the model describes. -/
def sizeof_ptr : Nat := 8

/-- Reduction of a natural number to the `unsigned int` range. -/
def wrap (x : Nat) : Nat := x % (UINT_MAX + 1)

/-- `a + b` on `unsigned int`. -/
def uadd (a b : Nat) : Nat := wrap (a + b)

/-- `a - b` on `unsigned int` (wraps below zero). -/
def usub (a b : Nat) : Nat := wrap (wrap a + (UINT_MAX + 1) - wrap b)

/-- The descriptor `struct array_list_s`; `array` is the heap block that the
`void **array` field points to. -/
structure array_list_s (α : Type) where
  array : List (Option α)
  capacity : Nat
  num_of_elements : Nat
deriving DecidableEq, Repr

/-- How a call ends: it returns a value and leaves a descriptor, or it returns
a value after the descriptor was destroyed (with or without its storage block
released), or its behaviour is undefined. -/
inductive Result (ρ α : Type) where
  | returned (value : ρ) (list : array_list_s α)
  | destroyed (value : ρ) (storage_released : Bool)
  | undefined
deriving DecidableEq, Repr

/-- Reading `block[i]`; `none` when the slot lies outside the block. -/
def load {α : Type} (block : List (Option α)) (i : Nat) : Option (Option α) :=
  if i < block.length then some (block.getD i none) else none

/-- Writing `block[i] = v`; `none` when the slot lies outside the block. -/
def store {α : Type} (block : List (Option α)) (i : Nat) (v : Option α) :
    Option (List (Option α)) :=
  if i < block.length then some (block.set i v) else none

/-- The call `memmove(&block[dst], &block[src], n * sizeof(void *))`: the `n`
slots starting at `src` are copied to the `n` slots starting at `dst`, as if
through a temporary buffer. `none` when either range leaves the block. -/
def memmove {α : Type} (block : List (Option α)) (dst src n : Nat) :
    Option (List (Option α)) :=
  if src + n ≤ block.length ∧ dst + n ≤ block.length then
    some (block.take dst ++ (block.drop src).take n ++ block.drop (dst + n))
  else none

/-- The byte count `1.5 * capacity * sizeof(void *)` passed to `realloc`,
truncated to an integer. -/
def realloc_bytes (capacity : Nat) : Nat := 3 * capacity * sizeof_ptr / 2

/-- The call `realloc(block, bytes)`: on success the new block holds
`bytes / sizeof(void *)` whole slots, the old contents up to the smaller of the
two sizes, and indeterminate slots after them; on failure `NULL`. -/
def realloc {α : Type} (ok : Bool) (block : List (Option α)) (bytes : Nat) :
    Option (List (Option α)) :=
  if ok then
    some ((block ++ List.replicate (bytes / sizeof_ptr - block.length) none).take
      (bytes / sizeof_ptr))
  else none

/-- The conversion of the `double` value `1.5 * capacity` to `unsigned int`:
truncation, undefined when the truncated value exceeds `UINT_MAX`. -/
def scaled_capacity (capacity : Nat) : Option Nat :=
  if 3 * capacity / 2 ≤ UINT_MAX then some (3 * capacity / 2) else none

/-- `create_array_list`: `NULL` (`none`) when either `malloc` fails, otherwise a
descriptor with `DEFAULT_NUM_OF_ELEMENTS` fresh slots. -/
def create_array_list (α : Type) (malloc_descriptor malloc_storage : Bool) :
    Option (array_list_s α) :=
  if malloc_descriptor then
    if !malloc_storage then none
    else some
      { array := List.replicate (DEFAULT_NUM_OF_ELEMENTS * sizeof_ptr / sizeof_ptr) none
        capacity := DEFAULT_NUM_OF_ELEMENTS
        num_of_elements := 0 }
  else none

/-- `destroy_array_list`: the descriptor is always freed; the value tells
whether the storage block was freed as well (`if (array_list->capacity)`). -/
def destroy_array_list {α : Type} (array_list : array_list_s α) : Bool :=
  decide (array_list.capacity ≠ 0)

/-- `resize_array_list`: `realloc` to 1.5 times the capacity; on failure the
list is destroyed and `FALSE` returned. -/
def resize_array_list {α : Type} (realloc_ok : Bool) (array_list : array_list_s α) :
    Result boolean α :=
  match realloc realloc_ok array_list.array (realloc_bytes array_list.capacity) with
  | none => Result.destroyed boolean.FALSE (destroy_array_list array_list)
  | some new_array =>
    match scaled_capacity array_list.capacity with
    | none => Result.undefined
    | some c =>
      Result.returned boolean.TRUE
        { array := new_array, capacity := c,
          num_of_elements := array_list.num_of_elements }

/-- `add_to_array_list`. -/
def add_to_array_list {α : Type} (realloc_ok : Bool) (array_list : array_list_s α)
    (new_element : α) (index : Nat) : Result boolean α :=
  if index > array_list.num_of_elements then
    Result.returned boolean.FALSE array_list
  else
    let resized : Result boolean α :=
      if array_list.num_of_elements = array_list.capacity then
        resize_array_list realloc_ok array_list
      else Result.returned boolean.TRUE array_list
    match resized with
    | Result.undefined => Result.undefined
    | Result.destroyed _ released => Result.destroyed boolean.FALSE released
    | Result.returned boolean.FALSE l => Result.returned boolean.FALSE l
    | Result.returned boolean.TRUE l =>
      let moved : Option (List (Option α)) :=
        if index ≠ l.num_of_elements then
          memmove l.array (uadd index 1) index (usub l.num_of_elements index)
        else some l.array
      match moved with
      | none => Result.undefined
      | some shifted =>
        match store shifted index (some new_element) with
        | none => Result.undefined
        | some written =>
          Result.returned boolean.TRUE
            { array := written, capacity := l.capacity,
              num_of_elements := uadd l.num_of_elements 1 }

/-- `delete_from_array_list`. -/
def delete_from_array_list {α : Type} (array_list : array_list_s α) (index : Nat) :
    Result boolean α :=
  if index > usub array_list.num_of_elements 1 then
    Result.returned boolean.FALSE array_list
  else
    let moved : Option (List (Option α)) :=
      if index ≠ usub array_list.num_of_elements 1 then
        memmove array_list.array index (uadd index 1)
          (usub (usub array_list.num_of_elements index) 1)
      else some array_list.array
    match moved with
    | none => Result.undefined
    | some shifted =>
      Result.returned boolean.TRUE
        { array := shifted, capacity := array_list.capacity,
          num_of_elements := usub array_list.num_of_elements 1 }

/-- `set_in_array_list`. -/
def set_in_array_list {α : Type} (array_list : array_list_s α) (new_element : α)
    (index : Nat) : Result boolean α :=
  if index > usub array_list.num_of_elements 1 then
    Result.returned boolean.FALSE array_list
  else
    match store array_list.array index (some new_element) with
    | none => Result.undefined
    | some written =>
      Result.returned boolean.TRUE
        { array := written, capacity := array_list.capacity,
          num_of_elements := array_list.num_of_elements }

/-- `get_from_array_list`; `ref_to_element` is the content of the caller's cell
before the call, the second component of the returned value its content after
the call. -/
def get_from_array_list {α : Type} (array_list : array_list_s α)
    (ref_to_element : Option α) (index : Nat) : Result (boolean × Option α) α :=
  if index > usub array_list.num_of_elements 1 then
    Result.returned (boolean.FALSE, ref_to_element) array_list
  else
    match load array_list.array index with
    | none => Result.undefined
    | some v => Result.returned (boolean.TRUE, v) array_list

/-- The data-model invariants of a descriptor: the storage block holds
`capacity` slots, and both counters are `unsigned int` values. -/
def WellFormed {α : Type} (l : array_list_s α) : Prop :=
  l.array.length = l.capacity ∧ l.capacity ≤ UINT_MAX ∧ l.num_of_elements ≤ UINT_MAX

instance {α : Type} (l : array_list_s α) : Decidable (WellFormed l) := by
  unfold WellFormed; infer_instance

/-- The capacity after a successful `add_to_array_list`: grown by
`resize_array_list` exactly when the list was full. -/
def capacity_after_add (capacity num_of_elements : Nat) : Nat :=
  if num_of_elements = capacity then 3 * capacity / 2 else capacity

/-- A list of capacity 4 holding the three references 10, 20, 30. -/
def sample_three : array_list_s Nat :=
  { array := [some 10, some 20, some 30, none], capacity := 4, num_of_elements := 3 }

/-- A full list of capacity 2 holding the references 10, 20. -/
def sample_full : array_list_s Nat :=
  { array := [some 10, some 20], capacity := 2, num_of_elements := 2 }

/-- The capacity of a list made by `create_array_list` after `i` resizes:
2, 3, 4, 6, 9, 13, ... -/
def growth_capacity : Nat → Nat
  | 0 => DEFAULT_NUM_OF_ELEMENTS
  | i + 1 => 3 * growth_capacity i / 2

/-- The largest capacity the growth from `DEFAULT_NUM_OF_ELEMENTS` reaches within
`unsigned int` (the capacity after 53 resizes); the next one would be
5236622419. -/
def LAST_CAPACITY : Nat := 3491081613

/-- Pure appends: `add_to_array_list(list, e, list->num_of_elements)` for each
element in turn, every reallocation succeeding. The run goes on only while the
calls return `TRUE`; the first other outcome is the outcome of the run. -/
def append_all {α : Type} (l : array_list_s α) : List α → Result boolean α
  | [] => Result.returned boolean.TRUE l
  | e :: es =>
    match add_to_array_list true l e l.num_of_elements with
    | Result.returned boolean.TRUE l1 => append_all l1 es
    | r => r

/-- The list a call leaves behind when it returns, whatever value it returned;
nothing when the list was destroyed or the behaviour is undefined. -/
def left_behind {ρ α : Type} : Result ρ α → Option (array_list_s α)
  | Result.returned _ l => some l
  | Result.destroyed _ _ => none
  | Result.undefined => none

/-- Lines 21-25 of `main`: `create_array_list` and four inserts at index 0, all
allocations succeeding; `main` does not look at the returned values. -/
def main_after_adds {α : Type} (a0 a1 a2 a3 : α) : Option (array_list_s α) :=
  (create_array_list α true true).bind fun l0 =>
  (left_behind (add_to_array_list true l0 a0 0)).bind fun l1 =>
  (left_behind (add_to_array_list true l1 a1 0)).bind fun l2 =>
  (left_behind (add_to_array_list true l2 a2 0)).bind fun l3 =>
  left_behind (add_to_array_list true l3 a3 0)

/-! ## Arithmetic of `unsigned int` -/

theorem wrap_of_le {x : Nat} (h : x ≤ UINT_MAX) : wrap x = x := by
  unfold wrap; unfold UINT_MAX at *; omega

theorem uadd_one_of_lt {x : Nat} (h : x < UINT_MAX) : uadd x 1 = x + 1 := by
  unfold uadd wrap; unfold UINT_MAX at *; omega

theorem usub_of_le {a b : Nat} (ha : a ≤ UINT_MAX) (hb : b ≤ a) : usub a b = a - b := by
  unfold usub wrap; unfold UINT_MAX at *; omega

theorem usub_zero_one : usub 0 1 = UINT_MAX := by
  decide

theorem usub_le (a b : Nat) : usub a b ≤ UINT_MAX := by
  unfold usub wrap; unfold UINT_MAX; omega

/-! ## The heap block primitives -/

theorem slot_congr {α : Type} (b : List (Option α)) {i j : Nat} (h : i = j) :
    b[i]? = b[j]? := by
  rw [h]

theorem memmove_spec {α : Type} {b b' : List (Option α)} {d s n : Nat}
    (h : memmove b d s n = some b') :
    b'.length = b.length ∧
      ∀ i, b'[i]? = if d ≤ i ∧ i < d + n then b[s + (i - d)]? else b[i]? := by
  unfold memmove at h
  split at h
  · rename_i hb
    obtain ⟨h1, h2⟩ := hb
    simp only [Option.some.injEq] at h
    subst h
    refine ⟨?_, fun i => ?_⟩
    · simp only [List.length_append, List.length_take, List.length_drop]
      omega
    · simp only [List.getElem?_append, List.length_take, List.length_drop,
        List.length_append, List.getElem?_take, List.getElem?_drop]
      split_ifs <;> first | rfl | omega | exact slot_congr _ (by omega)
  · exact absurd h (by simp)

theorem memmove_in_bounds {α : Type} (b : List (Option α)) {d s n : Nat}
    (h1 : s + n ≤ b.length) (h2 : d + n ≤ b.length) :
    ∃ b', memmove b d s n = some b' := by
  unfold memmove
  exact ⟨_, if_pos ⟨h1, h2⟩⟩

theorem memmove_out_of_bounds {α : Type} (b : List (Option α)) {d s n : Nat}
    (h : b.length < s + n ∨ b.length < d + n) : memmove b d s n = none := by
  unfold memmove
  apply if_neg
  omega

theorem store_in_bounds {α : Type} (b : List (Option α)) {i : Nat} (v : Option α)
    (h : i < b.length) : store b i v = some (b.set i v) := by
  unfold store
  exact if_pos h

theorem load_in_bounds {α : Type} (b : List (Option α)) {i : Nat}
    (h : i < b.length) : load b i = b[i]? := by
  unfold load
  rw [if_pos h, List.getD_eq_getElem?_getD, List.getElem?_eq_getElem h]
  rfl

theorem realloc_grow {α : Type} (b : List (Option α)) (c : Nat) (h : b.length ≤ 3 * c / 2) :
    realloc true b (realloc_bytes c) =
      some (b ++ List.replicate (3 * c / 2 - b.length) none) := by
  have hb : realloc_bytes c / sizeof_ptr = 3 * c / 2 := by
    unfold realloc_bytes sizeof_ptr; omega
  unfold realloc
  rw [if_pos rfl, hb, List.take_of_length_le]
  simp only [List.length_append, List.length_replicate]
  omega

/-! ## The shift performed by `add_to_array_list` -/

/-- The block move of `add_to_array_list` (skipped for an append) stays inside a
block with room for one more slot, and moves slots `[k, n)` to `[k+1, n+1)`. -/
theorem add_move_spec {α : Type} (b : List (Option α)) {n k : Nat}
    (hk : k ≤ n) (hn : n < b.length) (hU : n < UINT_MAX) :
    ∃ sh, (if k ≠ n then memmove b (uadd k 1) k (usub n k) else some b) = some sh ∧
      sh.length = b.length ∧
      ∀ i, sh[i]? = if k < i ∧ i ≤ n then b[i - 1]? else b[i]? := by
  by_cases hkn : k = n
  · subst hkn
    refine ⟨b, by simp, rfl, fun i => ?_⟩
    rw [if_neg (by omega)]
  · have h1 : uadd k 1 = k + 1 := uadd_one_of_lt (by omega)
    have h2 : usub n k = n - k := usub_of_le (by omega) hk
    obtain ⟨sh, hsh⟩ := memmove_in_bounds b (d := k + 1) (s := k) (n := n - k)
      (by omega) (by omega)
    obtain ⟨hl, hg⟩ := memmove_spec hsh
    refine ⟨sh, by rw [if_pos hkn, h1, h2, hsh], hl, fun i => ?_⟩
    rw [hg i]
    split_ifs <;> first | rfl | omega | exact slot_congr _ (by omega)

/-- Full description of a successful `add_to_array_list`: on a well-formed list
with `num_of_elements ≤ capacity`, `2 ≤ capacity`, a valid index, a succeeding
reallocation when one is needed and a new capacity that fits `unsigned int`,
the call returns `TRUE` and every slot of the new block is determined. -/
theorem add_spec {α : Type} (ok : Bool) (l : array_list_s α) (e : α) (k : Nat)
    (hwf : WellFormed l) (hlen : l.num_of_elements ≤ l.capacity) (hcap : 2 ≤ l.capacity)
    (hk : k ≤ l.num_of_elements)
    (hok : l.num_of_elements = l.capacity → ok = true)
    (hfit : l.num_of_elements = l.capacity → 3 * l.capacity / 2 ≤ UINT_MAX) :
    ∃ a, add_to_array_list ok l e k = Result.returned boolean.TRUE
          { array := a, capacity := capacity_after_add l.capacity l.num_of_elements,
            num_of_elements := l.num_of_elements + 1 } ∧
      a.length = capacity_after_add l.capacity l.num_of_elements ∧
      ∀ i, a[i]? =
        if i = k then some (some e)
        else if k < i ∧ i ≤ l.num_of_elements then l.array[i - 1]?
        else if i < l.capacity then l.array[i]?
        else if i < capacity_after_add l.capacity l.num_of_elements then some none
        else none := by
  obtain ⟨hal, hcU, hnU⟩ := hwf
  by_cases hfull : l.num_of_elements = l.capacity
  · have hokt : ok = true := hok hfull
    have hf := hfit hfull
    subst hokt
    have hgrow : l.capacity + 1 ≤ 3 * l.capacity / 2 := by omega
    have hnlt : l.num_of_elements < UINT_MAX := by omega
    have hre := realloc_grow l.array l.capacity (by omega)
    obtain ⟨sh, hsh, hshl, hshg⟩ :=
      add_move_spec (l.array ++ List.replicate (3 * l.capacity / 2 - l.array.length) none)
        hk (by simp only [List.length_append, List.length_replicate]; omega) hnlt
    have hst := store_in_bounds sh (i := k) (some e)
      (by rw [hshl]; simp only [List.length_append, List.length_replicate]; omega)
    refine ⟨sh.set k (some e), ?_, ?_, fun i => ?_⟩
    · simp only [add_to_array_list, resize_array_list, scaled_capacity, capacity_after_add,
        if_neg (Nat.not_lt.mpr hk), if_pos hfull, if_pos hf, hre, hsh, hst,
        uadd_one_of_lt hnlt]
    · simp only [List.length_set, hshl, List.length_append, List.length_replicate,
        capacity_after_add, if_pos hfull]
      omega
    · simp only [List.getElem?_set, hshl, hshg, List.getElem?_append, List.length_append,
        List.length_replicate, List.getElem?_replicate, capacity_after_add, if_pos hfull]
      split_ifs <;> first | rfl | omega
  · have hnlt : l.num_of_elements < UINT_MAX := by omega
    obtain ⟨sh, hsh, hshl, hshg⟩ := add_move_spec l.array hk (by omega) hnlt
    have hst := store_in_bounds sh (i := k) (some e) (by rw [hshl]; omega)
    refine ⟨sh.set k (some e), ?_, ?_, fun i => ?_⟩
    · simp only [add_to_array_list, capacity_after_add,
        if_neg (Nat.not_lt.mpr hk), if_neg hfull, hsh, hst, uadd_one_of_lt hnlt]
    · simp only [List.length_set, hshl, capacity_after_add, if_neg hfull, hal]
    · simp only [List.getElem?_set, hshl, hshg, capacity_after_add, if_neg hfull]
      split_ifs <;> first | rfl | omega | (rw [List.getElem?_eq_none]; omega)

/-! ## The other operations -/

/-- Full description of `delete_from_array_list` on a non-empty well-formed list
at a valid index. -/
theorem delete_spec {α : Type} (l : array_list_s α) (k : Nat)
    (hwf : WellFormed l) (hlen : l.num_of_elements ≤ l.capacity)
    (hk : k < l.num_of_elements) :
    ∃ a, delete_from_array_list l k = Result.returned boolean.TRUE
          { array := a, capacity := l.capacity,
            num_of_elements := l.num_of_elements - 1 } ∧
      a.length = l.capacity ∧
      ∀ i, a[i]? = if k ≤ i ∧ i < l.num_of_elements - 1 then l.array[i + 1]? else l.array[i]? := by
  obtain ⟨hal, hcU, hnU⟩ := hwf
  have h1 : usub l.num_of_elements 1 = l.num_of_elements - 1 := usub_of_le hnU (by omega)
  by_cases hlast : k = l.num_of_elements - 1
  · refine ⟨l.array, ?_, hal, fun i => ?_⟩
    · simp only [delete_from_array_list, h1, hlast, gt_iff_lt, lt_self_iff_false, if_false,
        ne_eq, not_true_eq_false]
    · rw [if_neg (by omega)]
  · have h2 : uadd k 1 = k + 1 := uadd_one_of_lt (by omega)
    have h3 : usub (usub l.num_of_elements k) 1 = l.num_of_elements - k - 1 := by
      have ha : l.num_of_elements - k ≤ UINT_MAX := by omega
      have hb : 1 ≤ l.num_of_elements - k := by omega
      rw [usub_of_le hnU (Nat.le_of_lt hk), usub_of_le ha hb]
    obtain ⟨sh, hsh⟩ := memmove_in_bounds l.array (d := k) (s := k + 1)
      (n := l.num_of_elements - k - 1) (by omega) (by omega)
    obtain ⟨hl, hg⟩ := memmove_spec hsh
    refine ⟨sh, ?_, by omega, fun i => ?_⟩
    · simp only [delete_from_array_list, h1, h2, h3,
        if_neg (show ¬ k > l.num_of_elements - 1 by omega), ne_eq, hlast, not_false_eq_true,
        if_true, hsh]
    · rw [hg i]
      split_ifs <;> first | rfl | omega | exact slot_congr l.array (by omega)

/-- The bounds check shared by delete, set and get rejects exactly the indices
`≥ num_of_elements` when the list is not empty. -/
theorem index_check_nonempty {n k : Nat} (hn : 1 ≤ n) (hU : n ≤ UINT_MAX) :
    k > usub n 1 ↔ n ≤ k := by
  rw [usub_of_le hU hn]; omega

/-- Full description of `set_in_array_list` at a valid index. -/
theorem set_spec {α : Type} (l : array_list_s α) (e : α) (k : Nat)
    (hwf : WellFormed l) (hlen : l.num_of_elements ≤ l.capacity)
    (hk : k < l.num_of_elements) :
    set_in_array_list l e k = Result.returned boolean.TRUE
      { array := l.array.set k (some e), capacity := l.capacity,
        num_of_elements := l.num_of_elements } := by
  obtain ⟨hal, hcU, hnU⟩ := hwf
  have hc : ¬ k > usub l.num_of_elements 1 := by
    rw [index_check_nonempty (by omega) hnU]; omega
  simp only [set_in_array_list, if_neg hc, store_in_bounds l.array (some e)
    (show k < l.array.length by omega)]

/-- Full description of `get_from_array_list` at a valid index. -/
theorem get_spec {α : Type} (l : array_list_s α) (r : Option α) (k : Nat)
    (hU : l.num_of_elements ≤ UINT_MAX) (hal : l.num_of_elements ≤ l.array.length)
    (hk : k < l.num_of_elements) :
    ∃ v, l.array[k]? = some v ∧
      get_from_array_list l r k = Result.returned (boolean.TRUE, v) l := by
  have hc : ¬ k > usub l.num_of_elements 1 := by
    rw [index_check_nonempty (by omega) hU]; omega
  have hb : k < l.array.length := by omega
  refine ⟨l.array[k], List.getElem?_eq_getElem hb, ?_⟩
  simp only [get_from_array_list, if_neg hc, load_in_bounds l.array hb,
    List.getElem?_eq_getElem hb]

/-- A full list whose grown capacity does not fit `unsigned int`: after the
successful `realloc`, the conversion in `resize_array_list` is undefined. -/
theorem add_undefined_of_overflow {α : Type} (l : array_list_s α) (e : α) (k : Nat)
    (hk : k ≤ l.num_of_elements) (hfull : l.num_of_elements = l.capacity)
    (hbig : UINT_MAX < 3 * l.capacity / 2) :
    add_to_array_list true l e k = Result.undefined := by
  simp only [add_to_array_list, if_neg (Nat.not_lt.mpr hk), if_pos hfull, resize_array_list,
    realloc, if_true, scaled_capacity, if_neg (Nat.not_le.mpr hbig)]

/-! ## Mid-insert and delete shift correctness -/

/-- C2: for every well-formed list of length `n ≥ 1`, `n ≤ capacity`, and every
index `k < n`, `delete_from_array_list` returns `TRUE`; the new list has length
`n - 1` and the same capacity, every slot below `k` is unchanged, every slot `i`
with `k ≤ i < n - 1` holds what slot `i + 1` held, and the live contents are the
old live contents with position `k` erased. -/
theorem delete_shift_correct {α : Type} (l : array_list_s α) (k : Nat)
    (hwf : WellFormed l) (hlen : l.num_of_elements ≤ l.capacity)
    (hn : 1 ≤ l.num_of_elements) (hk : k < l.num_of_elements) :
    ∃ l1, delete_from_array_list l k = Result.returned boolean.TRUE l1 ∧
      l1.num_of_elements = l.num_of_elements - 1 ∧
      l1.capacity = l.capacity ∧
      (∀ i, i < k → l1.array[i]? = l.array[i]?) ∧
      (∀ i, k ≤ i → i < l.num_of_elements - 1 → l1.array[i]? = l.array[i + 1]?) ∧
      l1.array.take (l.num_of_elements - 1) =
        (l.array.take l.num_of_elements).eraseIdx k := by
  obtain ⟨a, hdel, _, hslots⟩ := delete_spec l k hwf hlen hk
  refine ⟨_, hdel, rfl, rfl, fun i hi => ?_, fun i h1 h2 => ?_, ?_⟩
  · simp only [hslots]
    rw [if_neg (by omega)]
  · simp only [hslots]
    rw [if_pos ⟨h1, h2⟩]
  · apply List.ext_getElem?
    intro i
    simp only [List.getElem?_take, hslots, List.getElem?_eraseIdx]
    split_ifs <;> first | rfl | omega

/-- C2, witness: deleting index 0 of the list `[10, 20, 30]`. -/
theorem delete_shift_correct_witness :
    ∃ l1, delete_from_array_list sample_three 0 = Result.returned boolean.TRUE l1 ∧
      l1.num_of_elements = 2 ∧ l1.array.take 2 = [some 20, some 30] := by
  obtain ⟨l1, h, hn, _, _, _, ht⟩ :=
    delete_shift_correct sample_three 0 (by decide) (by decide) (by decide) (by decide)
  exact ⟨l1, h, hn, ht⟩

/-! ## Pure appends -/

theorem growth_capacity_ge_two (i : Nat) : 2 ≤ growth_capacity i := by
  induction i with
  | zero => exact le_refl _
  | succ i ih => simp only [growth_capacity]; omega

theorem growth_capacity_strictMono : StrictMono growth_capacity := by
  apply strictMono_nat_of_lt_succ
  intro i
  have := growth_capacity_ge_two i
  simp only [growth_capacity]
  omega

theorem growth_capacity_last : growth_capacity 53 = LAST_CAPACITY := by
  decide

/-- A capacity of the growth sequence below the last one grows to a capacity
that is again in the sequence and fits `unsigned int`. -/
theorem growth_capacity_next {c : Nat} (h : ∃ j, c = growth_capacity j)
    (hlt : c < LAST_CAPACITY) :
    3 * c / 2 ≤ LAST_CAPACITY ∧ ∃ j, 3 * c / 2 = growth_capacity j := by
  obtain ⟨j, rfl⟩ := h
  rw [← growth_capacity_last] at hlt ⊢
  have hj : j < 53 := growth_capacity_strictMono.lt_iff_lt.mp hlt
  exact ⟨growth_capacity_strictMono.monotone (show j + 1 ≤ 53 by omega), j + 1, rfl⟩

/-- One append keeps the invariants of a list grown from `create_array_list`
and extends its live contents by the appended element. -/
theorem append_step {α : Type} (l : array_list_s α) (e : α) (xs : List α)
    (hwf : WellFormed l) (hlen : l.num_of_elements ≤ l.capacity)
    (hgrow : ∃ j, l.capacity = growth_capacity j)
    (hroom : l.num_of_elements + 1 ≤ LAST_CAPACITY)
    (hlive : l.array.take l.num_of_elements = xs.map some) :
    ∃ l1, add_to_array_list true l e l.num_of_elements = Result.returned boolean.TRUE l1 ∧
      WellFormed l1 ∧ l1.num_of_elements ≤ l1.capacity ∧
      (∃ j, l1.capacity = growth_capacity j) ∧
      l1.num_of_elements = l.num_of_elements + 1 ∧
      l1.array.take l1.num_of_elements = (xs ++ [e]).map some := by
  have hcap : 2 ≤ l.capacity := by
    obtain ⟨j, hj⟩ := hgrow
    rw [hj]; exact growth_capacity_ge_two j
  have hlast : LAST_CAPACITY ≤ UINT_MAX := by decide
  have hnext : l.num_of_elements = l.capacity →
      3 * l.capacity / 2 ≤ LAST_CAPACITY ∧ ∃ j, 3 * l.capacity / 2 = growth_capacity j :=
    fun hfull => growth_capacity_next hgrow (by omega)
  obtain ⟨a, hadd, halen, hslots⟩ := add_spec true l e l.num_of_elements hwf hlen hcap
    (le_refl _) (fun _ => rfl) (fun hfull => le_trans (hnext hfull).1 hlast)
  obtain ⟨hal, hcU, hnU⟩ := hwf
  have hxs : xs.length = l.num_of_elements := by
    have := congrArg List.length hlive
    simp only [List.length_take, List.length_map] at this
    omega
  refine ⟨_, hadd, ⟨halen, ?_, ?_⟩, ?_, ?_, rfl, ?_⟩
  · show capacity_after_add l.capacity l.num_of_elements ≤ UINT_MAX
    unfold capacity_after_add
    split_ifs with hfull
    · exact le_trans (hnext hfull).1 hlast
    · exact hcU
  · show l.num_of_elements + 1 ≤ UINT_MAX
    omega
  · show l.num_of_elements + 1 ≤ capacity_after_add l.capacity l.num_of_elements
    unfold capacity_after_add
    split_ifs with hfull
    · omega
    · omega
  · show ∃ j, capacity_after_add l.capacity l.num_of_elements = growth_capacity j
    unfold capacity_after_add
    split_ifs with hfull
    · exact (hnext hfull).2
    · exact hgrow
  · show a.take (l.num_of_elements + 1) = (xs ++ [e]).map some
    apply List.ext_getElem?
    intro i
    have hold : ∀ i, i < l.num_of_elements → l.array[i]? = (xs.map some)[i]? := by
      intro i hi
      rw [← hlive, List.getElem?_take, if_pos hi]
    rw [List.getElem?_take, List.map_append, List.getElem?_append]
    simp only [List.length_map, hxs, hslots]
    by_cases h1 : i < l.num_of_elements
    · rw [if_pos (by omega), if_neg (by omega), if_neg (by omega), if_pos (by omega),
        if_pos h1, hold i h1]
    · by_cases h2 : i = l.num_of_elements
      · subst h2
        simp
      · rw [if_neg (by omega), if_neg h1]
        symm
        apply List.getElem?_eq_none
        simp only [List.map_cons, List.map_nil, List.length_singleton]
        omega

/-- Pure appends on a list grown from `create_array_list`, as long as the
final length stays within `LAST_CAPACITY`: every call returns `TRUE` and the
live contents are extended by the appended elements, in order. -/
theorem append_all_spec {α : Type} (es : List α) :
    ∀ (l : array_list_s α) (xs : List α), WellFormed l →
      l.num_of_elements ≤ l.capacity → (∃ j, l.capacity = growth_capacity j) →
      l.num_of_elements + es.length ≤ LAST_CAPACITY →
      l.array.take l.num_of_elements = xs.map some →
      ∃ l1, append_all l es = Result.returned boolean.TRUE l1 ∧
        WellFormed l1 ∧ l1.num_of_elements ≤ l1.capacity ∧
        (∃ j, l1.capacity = growth_capacity j) ∧
        l1.num_of_elements = l.num_of_elements + es.length ∧
        l1.array.take l1.num_of_elements = (xs ++ es).map some := by
  induction es with
  | nil =>
    intro l xs hwf hlen hgrow _ hlive
    exact ⟨l, rfl, hwf, hlen, hgrow, rfl, by simpa using hlive⟩
  | cons e es ih =>
    intro l xs hwf hlen hgrow hroom hlive
    simp only [List.length_cons] at hroom
    obtain ⟨l1, hadd, hwf1, hlen1, hgrow1, hn1, hlive1⟩ :=
      append_step l e xs hwf hlen hgrow (by omega) hlive
    obtain ⟨l2, happ, hwf2, hlen2, hgrow2, hn2, hlive2⟩ :=
      ih l1 (xs ++ [e]) hwf1 hlen1 hgrow1 (by omega) hlive1
    refine ⟨l2, ?_, hwf2, hlen2, hgrow2, ?_, ?_⟩
    · simp only [append_all, hadd, happ]
    · simp only [List.length_cons]; omega
    · simpa using hlive2

theorem append_all_append {α : Type} (es fs : List α) :
    ∀ l : array_list_s α, append_all l (es ++ fs) =
      match append_all l es with
      | Result.returned boolean.TRUE l1 => append_all l1 fs
      | r => r := by
  induction es with
  | nil => intro l; rfl
  | cons e es ih =>
    intro l
    simp only [List.cons_append, append_all]
    cases hadd : add_to_array_list true l e l.num_of_elements with
    | returned b l1 =>
      cases b with
      | TRUE => exact ih l1
      | FALSE => rfl
    | destroyed b f => rfl
    | undefined => rfl

/-- The bound `LAST_CAPACITY` on pure appends is exact: after `LAST_CAPACITY`
appends to a fresh list the list is full at that capacity, and one more append
needs a capacity beyond `UINT_MAX`. -/
theorem append_past_last_capacity {α : Type} (es : List α) (e : α)
    (hm : es.length = LAST_CAPACITY) :
    ∃ l0, create_array_list α true true = some l0 ∧
      append_all l0 (es ++ [e]) = Result.undefined := by
  obtain ⟨l1, happ, hwf1, hlen1, ⟨j, hj⟩, hn1, _⟩ :=
    append_all_spec es
      { array := List.replicate (DEFAULT_NUM_OF_ELEMENTS * sizeof_ptr / sizeof_ptr) none,
        capacity := DEFAULT_NUM_OF_ELEMENTS, num_of_elements := 0 } []
      ⟨rfl, (by decide : DEFAULT_NUM_OF_ELEMENTS ≤ UINT_MAX), Nat.zero_le _⟩
      (Nat.zero_le _) ⟨0, rfl⟩ (by simp only [zero_add]; omega) rfl
  simp only [zero_add] at hn1
  have hcap : l1.capacity = LAST_CAPACITY := by
    have h54 : UINT_MAX < growth_capacity 54 := by decide
    have hlt : growth_capacity j < growth_capacity 54 := by
      rw [← hj]; exact lt_of_le_of_lt hwf1.2.1 h54
    have hj53 : j ≤ 53 := by
      have := growth_capacity_strictMono.lt_iff_lt.mp hlt
      omega
    have hle : l1.capacity ≤ LAST_CAPACITY := by
      rw [hj, ← growth_capacity_last]
      exact growth_capacity_strictMono.monotone hj53
    omega
  refine ⟨_, rfl, ?_⟩
  rw [append_all_append, happ]
  have hbig : UINT_MAX < 3 * l1.capacity / 2 := by
    rw [hcap]; decide
  simp only [append_all, add_undefined_of_overflow l1 e l1.num_of_elements (le_refl _)
    (by omega) hbig]

/-- C3: starting from the list returned by `create_array_list` (both
allocations succeeding) and appending `e_0 .. e_{m-1}` with
`add(e_j, current length)`, every reallocation succeeding and `m` at most
`LAST_CAPACITY` (the largest capacity the growth reaches within `unsigned int`),
every add returns `TRUE`, the final length is `m`, and
`get_from_array_list(i)` returns `TRUE` with `e_i` for every `i < m`. -/
theorem append_order {α : Type} (es : List α) (hm : es.length ≤ LAST_CAPACITY) :
    ∃ l0 l1, create_array_list α true true = some l0 ∧
      append_all l0 es = Result.returned boolean.TRUE l1 ∧
      l1.num_of_elements = es.length ∧
      ∀ (i : Nat) (hi : i < es.length) (r : Option α),
        get_from_array_list l1 r i = Result.returned (boolean.TRUE, some es[i]) l1 := by
  obtain ⟨l1, happ, hwf1, hlen1, _, hn1, hlive1⟩ :=
    append_all_spec es
      { array := List.replicate (DEFAULT_NUM_OF_ELEMENTS * sizeof_ptr / sizeof_ptr) none,
        capacity := DEFAULT_NUM_OF_ELEMENTS, num_of_elements := 0 } []
      ⟨rfl, (by decide : DEFAULT_NUM_OF_ELEMENTS ≤ UINT_MAX), Nat.zero_le _⟩
      (Nat.zero_le _) ⟨0, rfl⟩ (by simpa using hm) rfl
  simp only [zero_add, List.nil_append] at hn1 hlive1
  refine ⟨_, l1, rfl, happ, hn1, fun i hi r => ?_⟩
  obtain ⟨hal, _, hnU⟩ := hwf1
  obtain ⟨v, hv, hget⟩ := get_spec l1 r i hnU (by omega) (by omega)
  have hslot : l1.array[i]? = some (some es[i]) := by
    have h := congrArg (fun t => t[i]?) hlive1
    simp only [List.getElem?_take, if_pos (show i < l1.num_of_elements by omega),
      List.getElem?_map, List.getElem?_eq_getElem hi, Option.map_some'] at h
    exact h
  rw [hslot] at hv
  rw [hget, ← Option.some.inj hv]

/-- C3, witness: appending 10, 20, 30 to a fresh list. -/
theorem append_order_witness :
    ∃ l0 l1, create_array_list Nat true true = some l0 ∧
      append_all l0 [10, 20, 30] = Result.returned boolean.TRUE l1 ∧
      l1.num_of_elements = 3 ∧
      get_from_array_list l1 none 2 = Result.returned (boolean.TRUE, some 30) l1 := by
  obtain ⟨l0, l1, h0, h1, hn, hget⟩ := append_order [10, 20, 30] (by decide)
  exact ⟨l0, l1, h0, h1, hn, hget 2 (by decide) none⟩

/-! ## Growth -/

/-- A successful add to a full well-formed list with `2 ≤ capacity` whose
1.5-fold capacity fits `unsigned int`: the capacity becomes
`floor(1.5 * capacity)` and the old live contents are the new live contents
without the inserted slot. -/
theorem full_add_grows {α : Type} (l : array_list_s α) (e : α) (k : Nat)
    (hwf : WellFormed l) (hfull : l.num_of_elements = l.capacity) (hcap : 2 ≤ l.capacity)
    (hk : k ≤ l.num_of_elements) (hfit : 3 * l.capacity / 2 ≤ UINT_MAX) :
    ∃ l1, add_to_array_list true l e k = Result.returned boolean.TRUE l1 ∧
      l1.capacity = 3 * l.capacity / 2 ∧
      l1.capacity = l.capacity + l.capacity / 2 ∧
      l1.num_of_elements = l.num_of_elements + 1 ∧
      (l1.array.take (l.num_of_elements + 1)).eraseIdx k =
        l.array.take l.num_of_elements := by
  obtain ⟨a, hadd, _, hslots⟩ := add_spec true l e k hwf (le_of_eq hfull) hcap hk
    (fun _ => rfl) (fun _ => hfit)
  obtain ⟨hal, _, _⟩ := hwf
  refine ⟨_, hadd, ?_, ?_, rfl, ?_⟩
  · show capacity_after_add l.capacity l.num_of_elements = 3 * l.capacity / 2
    unfold capacity_after_add
    rw [if_pos hfull]
  · show capacity_after_add l.capacity l.num_of_elements = l.capacity + l.capacity / 2
    unfold capacity_after_add
    rw [if_pos hfull]
    omega
  · apply List.ext_getElem?
    intro i
    simp only [List.getElem?_eraseIdx, List.getElem?_take, hslots]
    split_ifs <;> first | rfl | omega

/-- C4: for every full well-formed list (`num_of_elements = capacity`) whose
capacity is one the code gives a list (`DEFAULT_NUM_OF_ELEMENTS` from
`create_array_list`, or one of its successive 1.5-fold growths by
`resize_array_list`) and every index `k ≤ num_of_elements`, when the
reallocation succeeds and `floor(1.5 * capacity)` fits in `unsigned int`,
`add_to_array_list` returns `TRUE`, the new capacity is
`floor(1.5 * capacity) = capacity + capacity / 2`, the length grows by one, and
the old live contents are the new live contents without the inserted slot, so
no element is lost or reordered. -/
theorem growth_trigger {α : Type} (l : array_list_s α) (e : α) (k : Nat)
    (hwf : WellFormed l) (hgrow : ∃ j, l.capacity = growth_capacity j)
    (hfull : l.num_of_elements = l.capacity)
    (hk : k ≤ l.num_of_elements) (hfit : 3 * l.capacity / 2 ≤ UINT_MAX) :
    ∃ l1, add_to_array_list true l e k = Result.returned boolean.TRUE l1 ∧
      l1.capacity = 3 * l.capacity / 2 ∧
      l1.capacity = l.capacity + l.capacity / 2 ∧
      l1.num_of_elements = l.num_of_elements + 1 ∧
      (l1.array.take (l.num_of_elements + 1)).eraseIdx k =
        l.array.take l.num_of_elements := by
  have hcap : 2 ≤ l.capacity := by
    obtain ⟨j, hj⟩ := hgrow
    rw [hj]
    exact growth_capacity_ge_two j
  exact full_add_grows l e k hwf hfull hcap hk hfit

/-- C4, witness: inserting 99 at index 1 of the full list `[10, 20]`, whose
capacity 2 is the one `create_array_list` gives. -/
theorem growth_trigger_witness :
    ∃ l1, add_to_array_list true sample_full 99 1 = Result.returned boolean.TRUE l1 ∧
      l1.capacity = 3 ∧
      (l1.array.take 3).eraseIdx 1 = [some 10, some 20] := by
  obtain ⟨l1, h, hc, _, _, hl⟩ :=
    growth_trigger sample_full 99 1 (by decide) ⟨0, by decide⟩ (by decide) (by decide)
      (by decide)
  exact ⟨l1, h, hc, hl⟩

/-! ## Set, and the bounds checks -/

/-- C5: for every well-formed list of length `n ≤ capacity` and every index
`k < n` (so `n ≥ 1`), `set_in_array_list(e, k)` returns `TRUE`, leaves length and
capacity unchanged, leaves every slot other than `k` unchanged, and a following
`get_from_array_list(k)` returns `TRUE` with `e`. -/
theorem set_does_not_shift {α : Type} (l : array_list_s α) (e : α) (k : Nat)
    (hwf : WellFormed l) (hlen : l.num_of_elements ≤ l.capacity)
    (hk : k < l.num_of_elements) :
    ∃ l1, set_in_array_list l e k = Result.returned boolean.TRUE l1 ∧
      l1.num_of_elements = l.num_of_elements ∧
      l1.capacity = l.capacity ∧
      l1.array.length = l.array.length ∧
      (∀ i, i ≠ k → l1.array[i]? = l.array[i]?) ∧
      ∀ r : Option α,
        get_from_array_list l1 r k = Result.returned (boolean.TRUE, some e) l1 := by
  refine ⟨_, set_spec l e k hwf hlen hk, rfl, rfl, List.length_set _ _ _, fun i hi => ?_,
    fun r => ?_⟩
  · exact List.getElem?_set_ne (Ne.symm hi)
  · obtain ⟨hal, _, hnU⟩ := hwf
    have hb : k < l.array.length := by omega
    obtain ⟨v, hv, hget⟩ := get_spec
      ({ array := l.array.set k (some e), capacity := l.capacity,
         num_of_elements := l.num_of_elements } : array_list_s α) r k hnU
      (by simp only [List.length_set]; omega) hk
    simp only [List.getElem?_set, if_true, if_pos hb, Option.some.injEq] at hv
    rw [hget, ← hv]

/-- C5, witness: overwriting index 1 of the list `[10, 20, 30]`. -/
theorem set_does_not_shift_witness :
    ∃ l1, set_in_array_list sample_three 99 1 = Result.returned boolean.TRUE l1 ∧
      l1.num_of_elements = 3 ∧ l1.capacity = 4 ∧
      get_from_array_list l1 none 1 = Result.returned (boolean.TRUE, some 99) l1 := by
  obtain ⟨l1, h, hn, hc, _, _, hget⟩ :=
    set_does_not_shift sample_three 99 1 (by decide) (by decide) (by decide)
  exact ⟨l1, h, hn, hc, hget none⟩

/-- C6: for every list and every index greater than `num_of_elements`,
`add_to_array_list` returns `FALSE` and leaves the descriptor as it was (same
storage, capacity and length), whether or not the list is full and whatever a
reallocation would have done. -/
theorem add_rejects_past_length {α : Type} (ok : Bool) (l : array_list_s α) (e : α)
    (k : Nat) (hk : l.num_of_elements < k) :
    add_to_array_list ok l e k = Result.returned boolean.FALSE l := by
  unfold add_to_array_list
  exact if_pos hk

/-- C6, witness: index 3 on the full list `[10, 20]`, with a reallocation that
would have failed. -/
theorem add_rejects_past_length_witness :
    add_to_array_list false sample_full 99 3 = Result.returned boolean.FALSE sample_full :=
  add_rejects_past_length false sample_full 99 3 (by decide)

/-- C7: for every list of length `n ≥ 1` (an `unsigned int`) and every index
`≥ n`, `delete_from_array_list`, `set_in_array_list` and `get_from_array_list`
each return `FALSE` and leave the descriptor as it was; get also leaves the
caller's cell as it was. -/
theorem nonempty_bounds_rejection {α : Type} (l : array_list_s α) (e : α)
    (r : Option α) (k : Nat) (hU : l.num_of_elements ≤ UINT_MAX)
    (hn : 1 ≤ l.num_of_elements) (hk : l.num_of_elements ≤ k) :
    delete_from_array_list l k = Result.returned boolean.FALSE l ∧
      set_in_array_list l e k = Result.returned boolean.FALSE l ∧
      get_from_array_list l r k = Result.returned (boolean.FALSE, r) l := by
  have hc : k > usub l.num_of_elements 1 := (index_check_nonempty hn hU).mpr hk
  refine ⟨?_, ?_, ?_⟩
  · unfold delete_from_array_list
    exact if_pos hc
  · unfold set_in_array_list
    exact if_pos hc
  · unfold get_from_array_list
    exact if_pos hc

/-- C7, witness: index 3 on the list `[10, 20, 30]`. -/
theorem nonempty_bounds_rejection_witness :
    delete_from_array_list sample_three 3 = Result.returned boolean.FALSE sample_three ∧
      set_in_array_list sample_three 99 3 = Result.returned boolean.FALSE sample_three ∧
      get_from_array_list sample_three (some 7) 3 =
        Result.returned (boolean.FALSE, some 7) sample_three :=
  nonempty_bounds_rejection sample_three 99 (some 7) 3 (by decide) (by decide) (by decide)

/-! ## `num_of_elements ≤ capacity` away from the empty-list case of delete -/

/-- Whenever `add_to_array_list` returns on a well-formed list with
`num_of_elements ≤ capacity` and `2 ≤ capacity`, the list it leaves is again
well formed with `num_of_elements ≤ capacity` and `2 ≤ capacity`. -/
theorem add_preserves_invariants {α : Type} (ok : Bool) (l l1 : array_list_s α) (e : α)
    (k : Nat) (b : boolean) (hwf : WellFormed l) (hlen : l.num_of_elements ≤ l.capacity)
    (hcap : 2 ≤ l.capacity) (h : add_to_array_list ok l e k = Result.returned b l1) :
    WellFormed l1 ∧ l1.num_of_elements ≤ l1.capacity ∧ 2 ≤ l1.capacity ∧
      l.capacity ≤ l1.capacity := by
  by_cases hk : l.num_of_elements < k
  · have hrej : add_to_array_list ok l e k = Result.returned boolean.FALSE l := by
      unfold add_to_array_list
      exact if_pos hk
    rw [hrej] at h
    cases h
    exact ⟨hwf, hlen, hcap, le_refl _⟩
  · by_cases hfull : l.num_of_elements = l.capacity
    · cases ok with
      | false =>
        simp only [add_to_array_list, if_neg hk, if_pos hfull, resize_array_list, realloc,
          Bool.false_eq_true, if_false] at h
        cases h
      | true =>
        by_cases hfit : 3 * l.capacity / 2 ≤ UINT_MAX
        · obtain ⟨a, hadd, halen, _⟩ := add_spec true l e k hwf hlen hcap (by omega)
            (fun _ => rfl) (fun _ => hfit)
          rw [hadd] at h
          cases h
          have hc : capacity_after_add l.capacity l.num_of_elements = 3 * l.capacity / 2 := by
            unfold capacity_after_add; rw [if_pos hfull]
          refine ⟨⟨halen, ?_, ?_⟩, ?_, ?_, ?_⟩
          · show capacity_after_add l.capacity l.num_of_elements ≤ UINT_MAX
            omega
          · show l.num_of_elements + 1 ≤ UINT_MAX
            omega
          · show l.num_of_elements + 1 ≤ capacity_after_add l.capacity l.num_of_elements
            omega
          · show 2 ≤ capacity_after_add l.capacity l.num_of_elements
            omega
          · show l.capacity ≤ capacity_after_add l.capacity l.num_of_elements
            omega
        · rw [add_undefined_of_overflow l e k (by omega) hfull (by omega)] at h
          cases h
    · obtain ⟨a, hadd, halen, _⟩ := add_spec ok l e k hwf hlen hcap (by omega)
        (fun hf => absurd hf hfull) (fun hf => absurd hf hfull)
      rw [hadd] at h
      cases h
      have hc : capacity_after_add l.capacity l.num_of_elements = l.capacity := by
        unfold capacity_after_add; rw [if_neg hfull]
      obtain ⟨_, hcU, hnU⟩ := hwf
      refine ⟨⟨halen, ?_, ?_⟩, ?_, ?_, ?_⟩
      · show capacity_after_add l.capacity l.num_of_elements ≤ UINT_MAX
        omega
      · show l.num_of_elements + 1 ≤ UINT_MAX
        omega
      · show l.num_of_elements + 1 ≤ capacity_after_add l.capacity l.num_of_elements
        omega
      · show 2 ≤ capacity_after_add l.capacity l.num_of_elements
        omega
      · show l.capacity ≤ capacity_after_add l.capacity l.num_of_elements
        omega

/-- Whenever `delete_from_array_list` returns on a non-empty well-formed list
with `num_of_elements ≤ capacity`, the list it leaves is again well formed with
`num_of_elements ≤ capacity`, and the capacity is unchanged. -/
theorem delete_preserves_invariants {α : Type} (l l1 : array_list_s α) (k : Nat)
    (b : boolean) (hwf : WellFormed l) (hlen : l.num_of_elements ≤ l.capacity)
    (hn : 1 ≤ l.num_of_elements) (h : delete_from_array_list l k = Result.returned b l1) :
    WellFormed l1 ∧ l1.num_of_elements ≤ l1.capacity ∧ l1.capacity = l.capacity := by
  by_cases hk : l.num_of_elements ≤ k
  · have hrej : delete_from_array_list l k = Result.returned boolean.FALSE l := by
      unfold delete_from_array_list
      exact if_pos ((index_check_nonempty hn hwf.2.2).mpr hk)
    rw [hrej] at h
    cases h
    exact ⟨hwf, hlen, rfl⟩
  · obtain ⟨a, hdel, halen, _⟩ := delete_spec l k hwf hlen (by omega)
    rw [hdel] at h
    cases h
    obtain ⟨_, hcU, hnU⟩ := hwf
    refine ⟨⟨halen, hcU, ?_⟩, ?_, rfl⟩
    · show l.num_of_elements - 1 ≤ UINT_MAX
      omega
    · show l.num_of_elements - 1 ≤ l.capacity
      omega

/-- Whenever `set_in_array_list` returns, length and capacity are as before and
the storage block has as many slots as before. -/
theorem set_preserves_invariants {α : Type} (l l1 : array_list_s α) (e : α) (k : Nat)
    (b : boolean) (h : set_in_array_list l e k = Result.returned b l1) :
    l1.num_of_elements = l.num_of_elements ∧ l1.capacity = l.capacity ∧
      l1.array.length = l.array.length := by
  unfold set_in_array_list at h
  split at h
  · cases h
    exact ⟨rfl, rfl, rfl⟩
  · by_cases hb : k < l.array.length
    · rw [store_in_bounds l.array (some e) hb] at h
      cases h
      exact ⟨rfl, rfl, List.length_set _ _ _⟩
    · have hst : store l.array k (some e) = none := by
        unfold store
        exact if_neg hb
      rw [hst] at h
      cases h

/-- Whenever `get_from_array_list` returns, the descriptor is as before. -/
theorem get_preserves_list {α : Type} (l l1 : array_list_s α) (r : Option α) (k : Nat)
    (v : boolean × Option α) (h : get_from_array_list l r k = Result.returned v l1) :
    l1 = l := by
  unfold get_from_array_list at h
  split at h
  · cases h
    rfl
  · split at h
    · cases h
    · cases h
      rfl

/-! ## The empty list: `num_of_elements - 1` wraps to `UINT_MAX` -/

/-- C8, the code at the failing input: on the empty list made by
`create_array_list`, `delete_from_array_list` with index `UINT_MAX` returns
`TRUE` and sets the length to `UINT_MAX`; with index 0 it passes the bounds
check and asks `memmove` for `UINT_MAX` slots, beyond the storage block. -/
theorem delete_on_empty_not_rejected :
    create_array_list Nat true true =
        some { array := [none, none], capacity := 2, num_of_elements := 0 } ∧
      delete_from_array_list
          ({ array := [none, none], capacity := 2, num_of_elements := 0 } : array_list_s Nat)
          4294967295 =
        Result.returned boolean.TRUE
          { array := [none, none], capacity := 2, num_of_elements := 4294967295 } ∧
      delete_from_array_list
          ({ array := [none, none], capacity := 2, num_of_elements := 0 } : array_list_s Nat)
          0 = Result.undefined := by
  decide

/-- C9, the code at the failing input: on the empty list made by
`create_array_list`, `get_from_array_list` with index 0 returns `TRUE` and hands
out the never-written slot 0, and `set_in_array_list` with index 0 returns
`TRUE` and writes slot 0. -/
theorem get_set_on_empty_not_rejected :
    get_from_array_list
        ({ array := [none, none], capacity := 2, num_of_elements := 0 } : array_list_s Nat)
        (some 1) 0 =
      Result.returned (boolean.TRUE, none)
        { array := [none, none], capacity := 2, num_of_elements := 0 } ∧
    set_in_array_list
        ({ array := [none, none], capacity := 2, num_of_elements := 0 } : array_list_s Nat)
        7 0 =
      Result.returned boolean.TRUE
        { array := [some 7, none], capacity := 2, num_of_elements := 0 } := by
  decide

/-- C10, the code at the failing input: the list made by `create_array_list`
satisfies `num_of_elements ≤ capacity` with `capacity ≥ 2`, and
`delete_from_array_list` with index `UINT_MAX` returns a list whose length
exceeds its capacity. -/
theorem delete_on_empty_breaks_length_le_capacity :
    ∃ l0 l1 : array_list_s Nat, create_array_list Nat true true = some l0 ∧
      l0.num_of_elements ≤ l0.capacity ∧ 2 ≤ l0.capacity ∧
      delete_from_array_list l0 UINT_MAX = Result.returned boolean.TRUE l1 ∧
      ¬ l1.num_of_elements ≤ l1.capacity :=
  ⟨{ array := [none, none], capacity := 2, num_of_elements := 0 },
   { array := [none, none], capacity := 2, num_of_elements := 4294967295 },
   by decide, by decide, by decide, by decide, by decide⟩

/-! ## Creation, and the failure of a reallocation -/

/-- C11: when both allocations succeed `create_array_list` returns a descriptor
with `capacity = 2`, `num_of_elements = 0` and two fresh slots; when either
allocation fails it returns `NULL`. -/
theorem create_array_list_result (α : Type) :
    create_array_list α true true =
        some { array := [none, none], capacity := 2, num_of_elements := 0 } ∧
      (∀ malloc_storage : Bool, create_array_list α false malloc_storage = none) ∧
      create_array_list α true false = none ∧
      ∀ (d s : Bool) (l : array_list_s α), create_array_list α d s = some l →
        l.capacity = 2 ∧ l.num_of_elements = 0 := by
  refine ⟨rfl, fun _ => rfl, rfl, fun d s l h => ?_⟩
  cases d <;> cases s <;> cases h
  exact ⟨rfl, rfl⟩

/-- C11, witness: the descriptor made with both allocations succeeding. -/
theorem create_array_list_result_witness :
    create_array_list Nat true true =
        some { array := [none, none], capacity := 2, num_of_elements := 0 } ∧
      ({ array := [none, none], capacity := 2, num_of_elements := 0 } :
          array_list_s Nat).capacity = 2 ∧
      ({ array := [none, none], capacity := 2, num_of_elements := 0 } :
          array_list_s Nat).num_of_elements = 0 :=
  ⟨by decide,
   (create_array_list_result Nat).2.2.2 true true
     { array := [none, none], capacity := 2, num_of_elements := 0 } (by decide)⟩

/-- Without a resize `add_to_array_list` does not consult the allocator: on a
list that is not full its outcome is the same whatever `realloc` would do, and
it is never the destruction of the list. -/
theorem add_not_full {α : Type} (ok : Bool) (l : array_list_s α) (e : α) (k : Nat)
    (hnf : l.num_of_elements ≠ l.capacity) :
    add_to_array_list ok l e k = add_to_array_list true l e k ∧
      ∀ (b : boolean) (f : Bool), add_to_array_list ok l e k ≠ Result.destroyed b f := by
  refine ⟨?_, fun b f => ?_⟩
  · simp only [add_to_array_list, if_neg hnf]
  · simp only [add_to_array_list, if_neg hnf]
    split
    · exact fun h => by cases h
    · split
      · exact fun h => by cases h
      · split
        · exact fun h => by cases h
        · exact fun h => by cases h

/-- On a full list whose reallocation fails, `add_to_array_list` at a valid index
destroys the list and returns `FALSE`. -/
theorem add_full_realloc_fails {α : Type} (l : array_list_s α) (e : α) (k : Nat)
    (hfull : l.num_of_elements = l.capacity) (hk : k ≤ l.num_of_elements) :
    add_to_array_list false l e k =
      Result.destroyed boolean.FALSE (destroy_array_list l) := by
  simp only [add_to_array_list, if_neg (Nat.not_lt.mpr hk), if_pos hfull, resize_array_list,
    realloc, Bool.false_eq_true, if_false]

/-- C12: for every full list (`num_of_elements = capacity`) and every valid index
`k ≤ num_of_elements`, if the reallocation fails then `add_to_array_list` returns
`FALSE` after `destroy_array_list` was applied to the list, so no descriptor is
left and the element is stored nowhere; and on a list that is not full the
outcome of add does not depend on the allocator and is never a destruction. -/
theorem destroy_on_resize_failure {α : Type} (l : array_list_s α) (e : α) (k : Nat) :
    (l.num_of_elements = l.capacity → k ≤ l.num_of_elements →
        add_to_array_list false l e k =
            Result.destroyed boolean.FALSE (destroy_array_list l) ∧
          left_behind (add_to_array_list false l e k) = none) ∧
      (l.num_of_elements ≠ l.capacity → ∀ ok : Bool,
        add_to_array_list ok l e k = add_to_array_list true l e k ∧
          ∀ (b : boolean) (f : Bool), add_to_array_list ok l e k ≠ Result.destroyed b f) := by
  refine ⟨fun hfull hk => ?_, fun hnf ok => add_not_full ok l e k hnf⟩
  rw [add_full_realloc_fails l e k hfull hk]
  exact ⟨rfl, rfl⟩

/-- C12, witness: a failing reallocation on the full list `[10, 20]` destroys
it, storage included; on the list `[10, 20, 30]` of capacity 4 the same
failing allocator is never asked. -/
theorem destroy_on_resize_failure_witness :
    add_to_array_list false sample_full 99 1 = Result.destroyed boolean.FALSE true ∧
      add_to_array_list false sample_three 99 1 = add_to_array_list true sample_three 99 1 :=
  ⟨((destroy_on_resize_failure sample_full 99 1).1 (by decide) (by decide)).1,
   ((destroy_on_resize_failure sample_three 99 1).2 (by decide) false).1⟩

/-! ## The operations as list transformations -/

/-- A block whose slots are those of `b` with `e` put at slot `k` and the slots
`[k, n)` moved up by one is `b` with `e` inserted at `k` and slot `n` dropped. -/
theorem insert_of_slots {α : Type} {a b : List (Option α)} {n k : Nat} (e : α)
    (hk : k ≤ n) (hn : n < b.length)
    (h : ∀ i, a[i]? =
      if i = k then some (some e) else if k < i ∧ i ≤ n then b[i - 1]? else b[i]?) :
    a = b.take k ++ some e :: ((b.drop k).take (n - k) ++ b.drop (n + 1)) := by
  apply List.ext_getElem?
  intro i
  simp only [h, List.getElem?_append, List.length_take, List.getElem?_take,
    List.getElem?_cons, List.getElem?_drop, List.length_drop]
  split_ifs <;> first | rfl | omega | exact slot_congr _ (by omega)

/-- The storage block after a successful `add_to_array_list`, written out: the
block in use after the resize step (the old block, followed by the fresh slots
of a grown one) with `e` inserted at slot `k` and the slot after the old live
part dropped. -/
theorem add_exec {α : Type} (ok : Bool) (l : array_list_s α) (e : α) (k : Nat)
    (hwf : WellFormed l) (hlen : l.num_of_elements ≤ l.capacity) (hcap : 2 ≤ l.capacity)
    (hk : k ≤ l.num_of_elements)
    (hok : l.num_of_elements = l.capacity → ok = true)
    (hfit : l.num_of_elements = l.capacity → 3 * l.capacity / 2 ≤ UINT_MAX) :
    add_to_array_list ok l e k = Result.returned boolean.TRUE
      { array :=
          (l.array ++ List.replicate
              (capacity_after_add l.capacity l.num_of_elements - l.capacity) none).take k ++
            some e ::
              (((l.array ++ List.replicate
                  (capacity_after_add l.capacity l.num_of_elements - l.capacity) none).drop
                  k).take (l.num_of_elements - k) ++
                (l.array ++ List.replicate
                  (capacity_after_add l.capacity l.num_of_elements - l.capacity) none).drop
                  (l.num_of_elements + 1)),
        capacity := capacity_after_add l.capacity l.num_of_elements,
        num_of_elements := l.num_of_elements + 1 } := by
  obtain ⟨a, hadd, halen, hslots⟩ := add_spec ok l e k hwf hlen hcap hk hok hfit
  obtain ⟨hal, _, _⟩ := hwf
  rw [hadd]
  refine congrArg (fun arr => Result.returned boolean.TRUE
    { array := arr, capacity := capacity_after_add l.capacity l.num_of_elements,
      num_of_elements := l.num_of_elements + 1 }) ?_
  have hn1 : l.num_of_elements + 1 ≤ capacity_after_add l.capacity l.num_of_elements := by
    unfold capacity_after_add; split_ifs <;> omega
  have hc : l.capacity ≤ capacity_after_add l.capacity l.num_of_elements := by
    unfold capacity_after_add; split_ifs <;> omega
  have hb : ∀ i, (l.array ++ List.replicate
      (capacity_after_add l.capacity l.num_of_elements - l.capacity) none)[i]? =
        if i < l.capacity then l.array[i]?
        else if i < capacity_after_add l.capacity l.num_of_elements then some none
        else none := by
    intro i
    simp only [List.getElem?_append, List.getElem?_replicate, hal]
    split_ifs <;> first | rfl | omega
  apply insert_of_slots e hk
    (by simp only [List.length_append, List.length_replicate]; omega)
  intro i
  rw [hslots i, hb i, hb (i - 1)]
  split_ifs <;> first | rfl | omega

/-- The storage block after `delete_from_array_list` on a non-empty well-formed
list at a valid index, written out: slot `k` is dropped from the live part and
the last live slot keeps its old content. -/
theorem delete_exec {α : Type} (l : array_list_s α) (k : Nat)
    (hwf : WellFormed l) (hlen : l.num_of_elements ≤ l.capacity)
    (hk : k < l.num_of_elements) :
    delete_from_array_list l k = Result.returned boolean.TRUE
      { array := l.array.take k ++
          ((l.array.drop (k + 1)).take (l.num_of_elements - 1 - k) ++
            l.array.drop (l.num_of_elements - 1)),
        capacity := l.capacity,
        num_of_elements := l.num_of_elements - 1 } := by
  obtain ⟨a, hdel, halen, hslots⟩ := delete_spec l k hwf hlen hk
  obtain ⟨hal, _, _⟩ := hwf
  rw [hdel]
  refine congrArg (fun arr => Result.returned boolean.TRUE
    { array := arr, capacity := l.capacity,
      num_of_elements := l.num_of_elements - 1 }) ?_
  apply List.ext_getElem?
  intro i
  simp only [hslots, List.getElem?_append, List.length_take, List.getElem?_take,
    List.getElem?_drop, List.length_drop]
  split_ifs <;> first | rfl | omega | exact slot_congr _ (by omega)

/-- A read of `get_from_array_list` at a valid index of a list whose live part
lies inside its storage block hands out the content of the slot. -/
theorem get_exec {α : Type} (l : array_list_s α) (r : Option α) (k : Nat) (v : Option α)
    (hU : l.num_of_elements ≤ UINT_MAX) (hal : l.num_of_elements ≤ l.array.length)
    (hk : k < l.num_of_elements) (hv : l.array[k]? = some v) :
    get_from_array_list l r k = Result.returned (boolean.TRUE, v) l := by
  obtain ⟨w, hw, hget⟩ := get_spec l r k hU hal hk
  rw [hv] at hw
  rw [hget, ← Option.some.inj hw]

/-! ## The demonstration run of `main.c` -/

theorem demo_add_first {α : Type} (A : α) :
    add_to_array_list true
        { array := [none, none], capacity := 2, num_of_elements := 0 } A 0 =
      Result.returned boolean.TRUE
        { array := [some A, none], capacity := 2, num_of_elements := 1 } :=
  add_exec true { array := [none, none], capacity := 2, num_of_elements := 0 } A 0
    ⟨rfl, (by decide : 2 ≤ UINT_MAX), (by decide : 0 ≤ UINT_MAX)⟩
    (by decide : 0 ≤ 2) (le_refl 2) (le_refl 0)
    (fun h => absurd h (by decide : ¬ (0 = 2))) (fun h => absurd h (by decide : ¬ (0 = 2)))

theorem demo_add_second {α : Type} (A B : α) :
    add_to_array_list true
        { array := [some A, none], capacity := 2, num_of_elements := 1 } B 0 =
      Result.returned boolean.TRUE
        { array := [some B, some A], capacity := 2, num_of_elements := 2 } :=
  add_exec true { array := [some A, none], capacity := 2, num_of_elements := 1 } B 0
    ⟨rfl, (by decide : 2 ≤ UINT_MAX), (by decide : 1 ≤ UINT_MAX)⟩
    (by decide : 1 ≤ 2) (le_refl 2) (by decide : 0 ≤ 1)
    (fun h => absurd h (by decide : ¬ (1 = 2))) (fun h => absurd h (by decide : ¬ (1 = 2)))

theorem demo_add_third {α : Type} (A B C : α) :
    add_to_array_list true
        { array := [some B, some A], capacity := 2, num_of_elements := 2 } C 0 =
      Result.returned boolean.TRUE
        { array := [some C, some B, some A], capacity := 3, num_of_elements := 3 } := by
  have h := add_exec true
    { array := [some B, some A], capacity := 2, num_of_elements := 2 } C 0
    ⟨rfl, (by decide : 2 ≤ UINT_MAX), (by decide : 2 ≤ UINT_MAX)⟩
    (le_refl 2) (le_refl 2) (by decide : 0 ≤ 2)
    (fun _ => rfl) (fun _ => (by decide : 3 * 2 / 2 ≤ UINT_MAX))
  simpa [capacity_after_add] using h

theorem demo_add_fourth {α : Type} (A B C D : α) :
    add_to_array_list true
        { array := [some C, some B, some A], capacity := 3, num_of_elements := 3 } D 0 =
      Result.returned boolean.TRUE
        { array := [some D, some C, some B, some A], capacity := 4,
          num_of_elements := 4 } := by
  have h := add_exec true
    { array := [some C, some B, some A], capacity := 3, num_of_elements := 3 } D 0
    ⟨rfl, (by decide : 3 ≤ UINT_MAX), (by decide : 3 ≤ UINT_MAX)⟩
    (le_refl 3) (by decide : 2 ≤ 3) (by decide : 0 ≤ 3)
    (fun _ => rfl) (fun _ => (by decide : 3 * 3 / 2 ≤ UINT_MAX))
  simpa [capacity_after_add] using h

theorem demo_delete {α : Type} (A B C D : α) :
    delete_from_array_list
        { array := [some D, some C, some B, some A], capacity := 4,
          num_of_elements := 4 } 1 =
      Result.returned boolean.TRUE
        { array := [some D, some B, some A, some A], capacity := 4,
          num_of_elements := 3 } :=
  delete_exec
    { array := [some D, some C, some B, some A], capacity := 4, num_of_elements := 4 } 1
    ⟨rfl, (by decide : 4 ≤ UINT_MAX), (by decide : 4 ≤ UINT_MAX)⟩
    (le_refl 4) (by decide : 1 < 4)

theorem left_behind_returned {ρ α : Type} (v : ρ) (l : array_list_s α) :
    left_behind (Result.returned v l) = some l :=
  rfl

theorem demo_after_adds {α : Type} (A B C D : α) :
    main_after_adds A B C D =
      some { array := [some D, some C, some B, some A], capacity := 4,
             num_of_elements := 4 } := by
  have h0 : create_array_list α true true =
      some { array := [none, none], capacity := 2, num_of_elements := 0 } := rfl
  unfold main_after_adds
  rw [h0, Option.some_bind, demo_add_first, left_behind_returned, Option.some_bind,
    demo_add_second, left_behind_returned, Option.some_bind, demo_add_third,
    left_behind_returned, Option.some_bind, demo_add_fourth, left_behind_returned]

/-- C13: starting from `create_array_list` (capacity 2, length 0), the inserts
`add(A,0)`, `add(B,0)`, `add(C,0)`, `add(D,0)` all return `TRUE` and give the
contents `[A]`, `[B,A]`, `[C,B,A]`, `[D,C,B,A]` with capacities 2, 2, 3, 4;
then `delete(1)` returns `TRUE` and gives `[D,B,A]` with length 3 (capacity
still 4, the fourth slot keeping its old content), and `get(1)` returns `TRUE`
with `B`. -/
theorem demo_trace (α : Type) (A B C D : α) (r : Option α) :
    create_array_list α true true =
        some { array := [none, none], capacity := 2, num_of_elements := 0 } ∧
      add_to_array_list true
          { array := [none, none], capacity := 2, num_of_elements := 0 } A 0 =
        Result.returned boolean.TRUE
          { array := [some A, none], capacity := 2, num_of_elements := 1 } ∧
      add_to_array_list true
          { array := [some A, none], capacity := 2, num_of_elements := 1 } B 0 =
        Result.returned boolean.TRUE
          { array := [some B, some A], capacity := 2, num_of_elements := 2 } ∧
      add_to_array_list true
          { array := [some B, some A], capacity := 2, num_of_elements := 2 } C 0 =
        Result.returned boolean.TRUE
          { array := [some C, some B, some A], capacity := 3, num_of_elements := 3 } ∧
      add_to_array_list true
          { array := [some C, some B, some A], capacity := 3, num_of_elements := 3 } D 0 =
        Result.returned boolean.TRUE
          { array := [some D, some C, some B, some A], capacity := 4,
            num_of_elements := 4 } ∧
      delete_from_array_list
          { array := [some D, some C, some B, some A], capacity := 4,
            num_of_elements := 4 } 1 =
        Result.returned boolean.TRUE
          { array := [some D, some B, some A, some A], capacity := 4,
            num_of_elements := 3 } ∧
      get_from_array_list
          { array := [some D, some B, some A, some A], capacity := 4,
            num_of_elements := 3 } r 1 =
        Result.returned (boolean.TRUE, some B)
          { array := [some D, some B, some A, some A], capacity := 4,
            num_of_elements := 3 } :=
  ⟨rfl, demo_add_first A, demo_add_second A B, demo_add_third A B C,
    demo_add_fourth A B C D, demo_delete A B C D,
    get_exec { array := [some D, some B, some A, some A], capacity := 4,
               num_of_elements := 3 } r 1 (some B)
      (by decide : 3 ≤ UINT_MAX) (by decide : 3 ≤ 4) (by decide : 1 < 3) rfl⟩

/-- C14 (as amended): after `add(A,0)`, `add(B,0)`, `add(C,0)`, `add(D,0)` on a
fresh list (contents `[D,C,B,A]`) and before any delete, `get(1)` returns `TRUE`
with `C`. -/
theorem demo_get_before_delete (α : Type) (A B C D : α) (r : Option α) :
    ∃ l, main_after_adds A B C D = some l ∧
      l.array.take l.num_of_elements = [some D, some C, some B, some A] ∧
      get_from_array_list l r 1 = Result.returned (boolean.TRUE, some C) l :=
  ⟨{ array := [some D, some C, some B, some A], capacity := 4, num_of_elements := 4 },
    demo_after_adds A B C D, rfl,
    get_exec { array := [some D, some C, some B, some A], capacity := 4,
               num_of_elements := 4 } r 1 (some C)
      (by decide : 4 ≤ UINT_MAX) (le_refl 4) (by decide : 1 < 4) rfl⟩

/-- C14 as stated fails: with the four references 1, 2, 3, 4 of `main.c` the
list after the four inserts is `[4, 3, 2, 1]`, and `get(1)` hands out 3 (the
third inserted reference), not 2 (the second). -/
theorem demo_get_before_delete_counterexample :
    ∃ l, main_after_adds 1 2 3 4 = some l ∧
      get_from_array_list l none 1 = Result.returned (boolean.TRUE, some 3) l ∧
      get_from_array_list l none 1 ≠ Result.returned (boolean.TRUE, some 2) l :=
  ⟨{ array := [some 4, some 3, some 2, some 1], capacity := 4, num_of_elements := 4 },
   by decide, by decide, by decide⟩

/-! ## Capacity -/

/-- Whenever `add_to_array_list` returns, the capacity is the old one, or the
list was full and the capacity is `floor(1.5 * capacity)`. -/
theorem add_capacity {α : Type} (ok : Bool) (l l1 : array_list_s α) (e : α) (k : Nat)
    (b : boolean) (h : add_to_array_list ok l e k = Result.returned b l1) :
    l1.capacity = l.capacity ∨
      (l.num_of_elements = l.capacity ∧ l1.capacity = 3 * l.capacity / 2) := by
  unfold add_to_array_list at h
  split at h
  · cases h
    exact Or.inl rfl
  · by_cases hfull : l.num_of_elements = l.capacity
    · simp only [if_pos hfull, resize_array_list] at h
      cases hre : realloc ok l.array (realloc_bytes l.capacity) with
      | none =>
        rw [hre] at h
        cases h
      | some new_array =>
        rw [hre] at h
        by_cases hfit : 3 * l.capacity / 2 ≤ UINT_MAX
        · simp only [scaled_capacity, if_pos hfit] at h
          split at h
          · cases h
          · split at h
            · cases h
            · cases h
              exact Or.inr ⟨hfull, rfl⟩
        · simp only [scaled_capacity, if_neg hfit] at h
          cases h
    · simp only [if_neg hfull] at h
      split at h
      · cases h
      · split at h
        · cases h
        · cases h
          exact Or.inl rfl

/-- Whenever `delete_from_array_list` returns, the capacity is the old one. -/
theorem delete_capacity {α : Type} (l l1 : array_list_s α) (k : Nat) (b : boolean)
    (h : delete_from_array_list l k = Result.returned b l1) :
    l1.capacity = l.capacity := by
  by_cases hc : k > usub l.num_of_elements 1
  · simp only [delete_from_array_list, if_pos hc] at h
    injection h with _ hl
    rw [← hl]
  · simp only [delete_from_array_list, if_neg hc] at h
    revert h
    generalize (if k ≠ usub l.num_of_elements 1 then
      memmove l.array k (uadd k 1) (usub (usub l.num_of_elements k) 1)
      else some l.array) = moved
    intro h
    cases moved with
    | none => exact Result.noConfusion h
    | some shifted =>
      injection h with _ hl
      rw [← hl]

/-- On a non-empty well-formed list with `num_of_elements ≤ capacity`, delete,
set and get return for every index; with `2 ≤ capacity` and room for one more
element, so does add, whatever the allocator would do. -/
theorem operations_return {α : Type} (l : array_list_s α) (e : α) (k : Nat)
    (hwf : WellFormed l) (hlen : l.num_of_elements ≤ l.capacity)
    (hn : 1 ≤ l.num_of_elements) :
    (∃ b l1, delete_from_array_list l k = Result.returned b l1) ∧
      (∃ b l1, set_in_array_list l e k = Result.returned b l1) ∧
      (∀ r, ∃ v l1, get_from_array_list l r k = Result.returned v l1) ∧
      (l.num_of_elements < l.capacity → 2 ≤ l.capacity →
        ∀ ok, ∃ b l1, add_to_array_list ok l e k = Result.returned b l1) := by
  have hU := hwf.2.2
  have hal := hwf.1
  by_cases hk : k < l.num_of_elements
  · obtain ⟨a, hdel, _⟩ := delete_spec l k hwf hlen hk
    refine ⟨⟨_, _, hdel⟩, ⟨_, _, set_spec l e k hwf hlen hk⟩, fun r => ?_,
      fun hlt hcap ok => ?_⟩
    · obtain ⟨v, _, hget⟩ := get_spec l r k hU (by omega) hk
      exact ⟨_, _, hget⟩
    · obtain ⟨a, hadd, _⟩ := add_spec ok l e k hwf hlen hcap (by omega)
        (fun hf => absurd hf (by omega)) (fun hf => absurd hf (by omega))
      exact ⟨_, _, hadd⟩
  · have hc : k > usub l.num_of_elements 1 := (index_check_nonempty hn hU).mpr (by omega)
    refine ⟨⟨boolean.FALSE, l, ?_⟩, ⟨boolean.FALSE, l, ?_⟩, fun r => ⟨(boolean.FALSE, r), l, ?_⟩,
      fun hlt hcap ok => ?_⟩
    · unfold delete_from_array_list
      exact if_pos hc
    · unfold set_in_array_list
      exact if_pos hc
    · unfold get_from_array_list
      exact if_pos hc
    · by_cases hkn : k = l.num_of_elements
      · obtain ⟨a, hadd, _⟩ := add_spec ok l e k hwf hlen hcap (by omega)
          (fun hf => absurd hf (by omega)) (fun hf => absurd hf (by omega))
        exact ⟨_, _, hadd⟩
      · refine ⟨boolean.FALSE, l, ?_⟩
        unfold add_to_array_list
        exact if_pos (by omega)

/-- C15: whenever they return, `delete_from_array_list`, `set_in_array_list` and
`get_from_array_list` leave the capacity unchanged, for every list and index;
`add_to_array_list` on a list with `num_of_elements < capacity` leaves the
capacity unchanged; after every returning add (the only call that can change
it) the capacity is at least the old one; and on a non-empty well-formed list
with `num_of_elements ≤ capacity` delete, set and get do return. -/
theorem capacity_never_shrinks {α : Type} (l l1 : array_list_s α) (e : α) (k : Nat) :
    (∀ b, delete_from_array_list l k = Result.returned b l1 → l1.capacity = l.capacity) ∧
      (∀ b, set_in_array_list l e k = Result.returned b l1 → l1.capacity = l.capacity) ∧
      (∀ r v, get_from_array_list l r k = Result.returned v l1 →
        l1.capacity = l.capacity) ∧
      (∀ ok b, l.num_of_elements < l.capacity →
        add_to_array_list ok l e k = Result.returned b l1 → l1.capacity = l.capacity) ∧
      (∀ ok b, add_to_array_list ok l e k = Result.returned b l1 →
        l.capacity ≤ l1.capacity) ∧
      (WellFormed l → l.num_of_elements ≤ l.capacity → 1 ≤ l.num_of_elements →
        (∃ b l2, delete_from_array_list l k = Result.returned b l2) ∧
        (∃ b l2, set_in_array_list l e k = Result.returned b l2) ∧
        (∀ r, ∃ v l2, get_from_array_list l r k = Result.returned v l2)) := by
  refine ⟨fun b h => delete_capacity l l1 k b h,
    fun b h => (set_preserves_invariants l l1 e k b h).2.1,
    fun r v h => (by rw [get_preserves_list l l1 r k v h]),
    fun ok b hlt h => ?_, fun ok b h => ?_, fun hwf hlen hn => ?_⟩
  · rcases add_capacity ok l l1 e k b h with hc | ⟨hfull, _⟩
    · exact hc
    · omega
  · rcases add_capacity ok l l1 e k b h with hc | ⟨_, hc⟩
    · omega
    · omega
  · obtain ⟨h1, h2, h3, _⟩ := operations_return l e k hwf hlen hn
    exact ⟨h1, h2, h3⟩

/-- C15, witness: deleting from, overwriting, reading and inserting into the
list `[10, 20, 30]` of capacity 4 leaves the capacity at 4. -/
theorem capacity_never_shrinks_witness :
    delete_from_array_list sample_three 1 = Result.returned boolean.TRUE
        { array := [some 10, some 30, some 30, none], capacity := 4, num_of_elements := 2 } ∧
      ({ array := [some 10, some 30, some 30, none], capacity := 4,
         num_of_elements := 2 } : array_list_s Nat).capacity = sample_three.capacity ∧
      add_to_array_list true sample_three 99 1 = Result.returned boolean.TRUE
        { array := [some 10, some 99, some 20, some 30], capacity := 4,
          num_of_elements := 4 } ∧
      ({ array := [some 10, some 99, some 20, some 30], capacity := 4,
         num_of_elements := 4 } : array_list_s Nat).capacity = sample_three.capacity :=
  ⟨by decide,
   (capacity_never_shrinks sample_three
      { array := [some 10, some 30, some 30, none], capacity := 4, num_of_elements := 2 }
      99 1).1 boolean.TRUE (by decide),
   by decide,
   (capacity_never_shrinks sample_three
      { array := [some 10, some 99, some 20, some 30], capacity := 4, num_of_elements := 4 }
      99 1).2.2.2.1 true boolean.TRUE (by decide) (by decide)⟩

/-- The successful resize of a full well-formed list: the block is the old one
followed by fresh slots, and holds exactly the new capacity. -/
theorem resize_exec {α : Type} (l : array_list_s α) (hwf : WellFormed l)
    (hfit : 3 * l.capacity / 2 ≤ UINT_MAX) :
    resize_array_list true l = Result.returned boolean.TRUE
      { array := l.array ++ List.replicate (3 * l.capacity / 2 - l.array.length) none,
        capacity := 3 * l.capacity / 2, num_of_elements := l.num_of_elements } := by
  obtain ⟨hal, _, _⟩ := hwf
  simp only [resize_array_list, realloc_grow l.array l.capacity (by omega), scaled_capacity,
    if_pos hfit]

/-- C16: `capacity ≥ 2` holds for the list made by `create_array_list` and after
every add, delete and set that returns on a list with `capacity ≥ 2`; and for
every full well-formed list with `capacity ≥ 2` whose `floor(1.5 * capacity)`
fits `unsigned int`, the one successful resize leaves the length unchanged and
gives a block of exactly the new capacity, which is strictly greater than the
length, so for every index `k ≤ num_of_elements` the moved block
`[k + 1, num_of_elements + 1)` and the written slot `k` lie below the new capacity
and the add returns `TRUE`. -/
theorem one_resize_suffices {α : Type} (l : array_list_s α) (e : α) :
    (∀ (d s : Bool) (l0 : array_list_s α), create_array_list α d s = some l0 →
        2 ≤ l0.capacity) ∧
      (2 ≤ l.capacity → ∀ (k : Nat) (b : boolean) (l1 : array_list_s α),
        (∀ ok, add_to_array_list ok l e k = Result.returned b l1 → 2 ≤ l1.capacity) ∧
        (delete_from_array_list l k = Result.returned b l1 → 2 ≤ l1.capacity) ∧
        (set_in_array_list l e k = Result.returned b l1 → 2 ≤ l1.capacity)) ∧
      (WellFormed l → l.num_of_elements = l.capacity → 2 ≤ l.capacity →
        3 * l.capacity / 2 ≤ UINT_MAX →
        ∃ l1, resize_array_list true l = Result.returned boolean.TRUE l1 ∧
          l1.num_of_elements = l.num_of_elements ∧
          l1.capacity = 3 * l.capacity / 2 ∧
          l1.array.length = l1.capacity ∧
          l.num_of_elements < l1.capacity ∧
          ∀ k, k ≤ l.num_of_elements →
            (k + 1) + (l.num_of_elements - k) ≤ l1.capacity ∧ k < l1.capacity ∧
            ∃ l2, add_to_array_list true l e k = Result.returned boolean.TRUE l2 ∧
              l2.capacity = l1.capacity) := by
  refine ⟨fun d s l0 h => ?_, fun hcap k b l1 => ⟨fun ok h => ?_, fun h => ?_, fun h => ?_⟩,
    fun hwf hfull hcap hfit => ?_⟩
  · cases d <;> cases s <;> cases h
    exact le_refl 2
  · rcases add_capacity ok l l1 e k b h with hc | ⟨_, hc⟩
    · omega
    · omega
  · rw [delete_capacity l l1 k b h]; exact hcap
  · rw [(set_preserves_invariants l l1 e k b h).2.1]; exact hcap
  · have hal := hwf.1
    refine ⟨_, resize_exec l hwf hfit, rfl, rfl, ?_, ?_, fun k hk => ⟨?_, ?_, ?_⟩⟩
    · simp only [List.length_append, List.length_replicate]
      omega
    · show l.num_of_elements < 3 * l.capacity / 2
      omega
    · show k + 1 + (l.num_of_elements - k) ≤ 3 * l.capacity / 2
      omega
    · show k < 3 * l.capacity / 2
      omega
    · obtain ⟨a, hadd, _, _⟩ := add_spec true l e k hwf (le_of_eq hfull) hcap hk
        (fun _ => rfl) (fun _ => hfit)
      refine ⟨_, hadd, ?_⟩
      show capacity_after_add l.capacity l.num_of_elements = 3 * l.capacity / 2
      unfold capacity_after_add
      rw [if_pos hfull]

/-- C16, witness: the full list `[10, 20]` of capacity 2 is resized to capacity
3, above its length 2, and the insert at index 0 returns `TRUE`. -/
theorem one_resize_suffices_witness :
    ∃ l1, resize_array_list true sample_full = Result.returned boolean.TRUE l1 ∧
      l1.capacity = 3 ∧ sample_full.num_of_elements < l1.capacity ∧
      ∃ l2, add_to_array_list true sample_full 99 0 = Result.returned boolean.TRUE l2 ∧
        l2.capacity = l1.capacity := by
  obtain ⟨l1, hre, _, hc, _, hlt, hk⟩ :=
    (one_resize_suffices sample_full 99).2.2 (by decide) (by decide) (by decide) (by decide)
  exact ⟨l1, hre, hc, hlt, (hk 0 (by decide)).2.2⟩

/-! ## Insert followed by delete, and the read -/

/-- When `add_to_array_list` returns at a valid index of a full list, the
reallocation succeeded and the grown capacity fits `unsigned int`. -/
theorem add_returned_full {α : Type} (ok : Bool) (l l1 : array_list_s α) (e : α) (k : Nat)
    (b : boolean) (hk : k ≤ l.num_of_elements) (hfull : l.num_of_elements = l.capacity)
    (h : add_to_array_list ok l e k = Result.returned b l1) :
    ok = true ∧ 3 * l.capacity / 2 ≤ UINT_MAX := by
  cases ok with
  | false =>
    rw [add_full_realloc_fails l e k hfull hk] at h
    exact Result.noConfusion h
  | true =>
    refine ⟨rfl, ?_⟩
    by_contra hfit
    rw [add_undefined_of_overflow l e k hk hfull (by omega)] at h
    exact Result.noConfusion h

/-- C17: for every well-formed list with `n = num_of_elements ≤ capacity`,
`2 ≤ capacity`, every element `e` and index `k ≤ n`, if `add_to_array_list(e, k)`
returns `TRUE` then `delete_from_array_list(k)` on the list it leaves returns
`TRUE` and restores the length `n` and the contents of the slots `[0, n)`; the
capacity is the one after the add, at least the original. -/
theorem add_delete_round_trip {α : Type} (ok : Bool) (l l1 : array_list_s α) (e : α)
    (k : Nat) (hwf : WellFormed l) (hlen : l.num_of_elements ≤ l.capacity)
    (hcap : 2 ≤ l.capacity) (hk : k ≤ l.num_of_elements)
    (hadd : add_to_array_list ok l e k = Result.returned boolean.TRUE l1) :
    ∃ l2, delete_from_array_list l1 k = Result.returned boolean.TRUE l2 ∧
      l2.num_of_elements = l.num_of_elements ∧
      l2.array.take l.num_of_elements = l.array.take l.num_of_elements ∧
      (∀ i, i < l.num_of_elements → l2.array[i]? = l.array[i]?) ∧
      l2.capacity = l1.capacity ∧ l.capacity ≤ l2.capacity := by
  obtain ⟨hwf1, hlen1, _, hcapge⟩ :=
    add_preserves_invariants ok l l1 e k boolean.TRUE hwf hlen hcap hadd
  obtain ⟨a, hadd1, _, hslots⟩ := add_spec ok l e k hwf hlen hcap hk
    (fun hfull => (add_returned_full ok l l1 e k boolean.TRUE hk hfull hadd).1)
    (fun hfull => (add_returned_full ok l l1 e k boolean.TRUE hk hfull hadd).2)
  rw [hadd1] at hadd
  injection hadd with _ hl1
  subst hl1
  obtain ⟨a2, hdel, _, hslots2⟩ :=
    delete_spec
      ({ array := a, capacity := capacity_after_add l.capacity l.num_of_elements,
         num_of_elements := l.num_of_elements + 1 } : array_list_s α) k hwf1 hlen1
      (show k < l.num_of_elements + 1 by omega)
  have hal := hwf.1
  have hsame : ∀ i, i < l.num_of_elements → a2[i]? = l.array[i]? := by
    intro i hi
    rw [hslots2 i]
    simp only [Nat.add_sub_cancel, hslots]
    split_ifs <;> first | rfl | omega
  refine ⟨_, hdel, rfl, ?_, hsame, rfl, hcapge⟩
  apply List.ext_getElem?
  intro i
  simp only [List.getElem?_take]
  split_ifs with hi
  · exact hsame i hi
  · rfl

/-- C17, witness: inserting 99 at index 1 of `[10, 20, 30]` and deleting index 1
again gives back `[10, 20, 30]`. -/
theorem add_delete_round_trip_witness :
    ∃ l2, delete_from_array_list
          ({ array := [some 10, some 99, some 20, some 30], capacity := 4,
             num_of_elements := 4 } : array_list_s Nat) 1 =
        Result.returned boolean.TRUE l2 ∧
      l2.num_of_elements = 3 ∧
      l2.array.take 3 = [some 10, some 20, some 30] := by
  obtain ⟨l2, hdel, hn, ht, _⟩ :=
    add_delete_round_trip false sample_three
      { array := [some 10, some 99, some 20, some 30], capacity := 4, num_of_elements := 4 }
      99 1 (by decide) (by decide) (by decide) (by decide) (by decide)
  exact ⟨l2, hdel, hn, ht⟩

/-- C18: whenever `get_from_array_list` returns, the descriptor (length, capacity
and every slot) is as before; when it returns `TRUE` the caller's cell holds
exactly the content of slot `index`, and when it returns `FALSE` the cell is as
before. On a non-empty list whose live part lies inside its storage block the
call always returns, with `TRUE` exactly for the indices below the length. -/
theorem get_is_pure_read {α : Type} (l : array_list_s α) (r : Option α) (k : Nat) :
    (∀ (b : boolean) (v : Option α) (l1 : array_list_s α),
        get_from_array_list l r k = Result.returned (b, v) l1 →
        l1 = l ∧ (b = boolean.TRUE → l.array[k]? = some v) ∧ (b = boolean.FALSE → v = r)) ∧
      (1 ≤ l.num_of_elements → l.num_of_elements ≤ UINT_MAX →
        l.num_of_elements ≤ l.array.length →
        ∃ b v, get_from_array_list l r k = Result.returned (b, v) l ∧
          (b = boolean.TRUE ↔ k < l.num_of_elements)) := by
  refine ⟨fun b v l1 h => ?_, fun hn hU hal => ?_⟩
  · by_cases hc : k > usub l.num_of_elements 1
    · simp only [get_from_array_list, if_pos hc] at h
      injection h with hv hl
      injection hv with hb hv
      subst hb hv hl
      exact ⟨rfl, fun hb => (by cases hb), fun _ => rfl⟩
    · simp only [get_from_array_list, if_neg hc] at h
      by_cases hb : k < l.array.length
      · rw [load_in_bounds l.array hb, List.getElem?_eq_getElem hb] at h
        injection h with hv hl
        injection hv with hb hv
        subst hb hv hl
        exact ⟨rfl, fun _ => List.getElem?_eq_getElem _, fun hb => (by cases hb)⟩
      · have hld : load l.array k = none := by
          unfold load
          exact if_neg hb
        rw [hld] at h
        exact Result.noConfusion h
  · by_cases hk : k < l.num_of_elements
    · obtain ⟨v, _, hget⟩ := get_spec l r k hU hal hk
      exact ⟨boolean.TRUE, v, hget, fun _ => hk, fun _ => rfl⟩
    · refine ⟨boolean.FALSE, r, ?_, fun hb => (by cases hb), fun h => absurd h hk⟩
      unfold get_from_array_list
      exact if_pos ((index_check_nonempty hn hU).mpr (by omega))

/-- C18, witness: reading index 1 of `[10, 20, 30]` into a cell holding 7. -/
theorem get_is_pure_read_witness :
    get_from_array_list sample_three (some 7) 1 =
        Result.returned (boolean.TRUE, some 20) sample_three ∧
      sample_three.array[1]? = some (some 20) :=
  ⟨by decide,
   ((get_is_pure_read sample_three (some 7) 1).1 boolean.TRUE (some 20) sample_three
      (by decide)).2.1 rfl⟩

/-! ## The size asked of `realloc` -/

/-- C19: whenever `resize_array_list` returns (so the reallocation succeeded and
`floor(1.5 * capacity)` fits `unsigned int`), the byte count passed to `realloc`,
`floor(1.5 * capacity * sizeof(void *))`, is at least the recorded new capacity
`floor(1.5 * capacity)` times `sizeof(void *)`, with equality exactly when the
old capacity is even; the new block holds exactly the recorded capacity in
whole slots, so the capacity field does not overstate the allocation. -/
theorem resize_requests_enough_bytes {α : Type} (ok : Bool) (l l1 : array_list_s α)
    (b : boolean) (h : resize_array_list ok l = Result.returned b l1) :
    l1.capacity = 3 * l.capacity / 2 ∧
      l1.capacity * sizeof_ptr ≤ realloc_bytes l.capacity ∧
      (realloc_bytes l.capacity = l1.capacity * sizeof_ptr ↔ l.capacity % 2 = 0) ∧
      realloc_bytes l.capacity / sizeof_ptr = l1.capacity ∧
      l1.array.length = l1.capacity := by
  unfold resize_array_list at h
  cases hre : realloc ok l.array (realloc_bytes l.capacity) with
  | none =>
    rw [hre] at h
    exact Result.noConfusion h
  | some new_array =>
    rw [hre] at h
    by_cases hfit : 3 * l.capacity / 2 ≤ UINT_MAX
    · simp only [scaled_capacity, if_pos hfit] at h
      injection h with _ hl
      subst hl
      have hlen : new_array.length = realloc_bytes l.capacity / sizeof_ptr := by
        unfold realloc at hre
        split at hre
        · injection hre with hre
          subst hre
          simp only [List.length_take, List.length_append, List.length_replicate]
          omega
        · cases hre
      refine ⟨rfl, ?_, ?_, ?_, ?_⟩
      · show 3 * l.capacity / 2 * sizeof_ptr ≤ realloc_bytes l.capacity
        unfold realloc_bytes sizeof_ptr
        omega
      · show realloc_bytes l.capacity = 3 * l.capacity / 2 * sizeof_ptr ↔ l.capacity % 2 = 0
        unfold realloc_bytes sizeof_ptr
        omega
      · show realloc_bytes l.capacity / sizeof_ptr = 3 * l.capacity / 2
        unfold realloc_bytes sizeof_ptr
        omega
      · show new_array.length = 3 * l.capacity / 2
        rw [hlen]
        unfold realloc_bytes sizeof_ptr
        omega
    · simp only [scaled_capacity, if_neg hfit] at h
      exact Result.noConfusion h

/-- C19, witness: resizing the list `[10, 20, 30]` of capacity 3 asks for 36
bytes, four more than the 32 bytes of the 4 recorded slots. -/
theorem resize_requests_enough_bytes_witness :
    realloc_bytes 3 = 36 ∧ (4 : Nat) * sizeof_ptr = 32 ∧
      ({ array := [some 10, some 20, some 30, none], capacity := 4,
         num_of_elements := 3 } : array_list_s Nat).capacity * sizeof_ptr ≤ realloc_bytes 3 :=
  ⟨by decide, by decide,
   (resize_requests_enough_bytes true
      { array := [some 10, some 20, some 30], capacity := 3, num_of_elements := 3 }
      { array := [some 10, some 20, some 30, none], capacity := 4, num_of_elements := 3 }
      boolean.TRUE (by decide)).2.1⟩

end ArrayList
